import Mathlib

/-!
Verification development for the boop audio library (mixer, WAV player,
polyphase resampler).

The Rust sources are shallowly embedded as follows.

Samples are f32/f64 values in the code; sample arithmetic is idealized as
exact rational arithmetic (every finite f32 is a rational number), and the
real-valued Kaiser window mathematics of the resampler's table construction
is modelled separately over the real numbers.  Machine integers (usize, u32,
u64) are modelled as Nat, with the one subtraction that can underflow
modelled through Int together with an explicit panic on a negative result
(debug semantics of the Rust build).

Fallible operations return Option: a `none` models a Rust panic (assertion
failure, division by zero in integer arithmetic, todo/unreachable, index
underflow) or a hang (fuel exhaustion in the refill loop, which in the code
loops forever when the buffer size is zero).

Stateful objects are embedded as explicit state passing: a Source (the
trait with write_samples and channel_count used by mixer.rs, resampler.rs
and source/wav.rs) becomes a state type together with a step function.
-/

/-! ## Generic list helpers used by the embeddings -/

/-- Rust slice pattern: zip-with-add of a prefix into a buffer, leaving the
tail of the buffer unchanged (out += in for the zipped prefix). -/
def addInto : List ℚ → List ℚ → List ℚ
  | buf, [] => buf
  | [], _ => []
  | b :: bs, x :: xs => (b + x) :: addInto bs xs

/-- Vec::resize_with(n, Default::default) : keep the first n elements,
pad with zeros up to length n. -/
def resizeZero (l : List ℚ) (n : ℕ) : List ℚ :=
  l.take n ++ List.replicate (n - l.length) 0

/-- Iterator::step_by(k) with a skip counter: yield when the counter is 0,
then skip k-1 elements. -/
def stepByAux (k : ℕ) : List α → ℕ → List α
  | [], _ => []
  | a :: rest, 0 => a :: stepByAux k rest (k - 1)
  | _ :: rest, c + 1 => stepByAux k rest c

/-- Iterator::step_by(k): every k-th element, starting with the first. -/
def stepBy (k : ℕ) (l : List α) : List α := stepByAux k l 0

/-- Dot product of two sample lists, truncating at the shorter one
(models zip + map(mul) + sum of the convolution loops). -/
def dotProd (xs ys : List ℚ) : ℚ := ((xs.zip ys).map (fun p => p.1 * p.2)).sum

/-- slice::swap i j, as used by RetainMut::retain_mut.  Out-of-bounds
indices cannot occur at the call site; the fallback returns the list
unchanged. -/
def swapL (l : List α) (i j : ℕ) : List α :=
  match l.get? i, l.get? j with
  | some a, some b => (l.set i b).set j a
  | _, _ => l

/-- Two's-complement reading of a w-bit little-endian unsigned value. -/
def toSigned (x : ℕ) (w : ℕ) : ℤ :=
  if x < 2 ^ (w - 1) then (x : ℤ) else (x : ℤ) - 2 ^ w

/-! ## The Source trait

mixer.rs and resampler.rs consume any Source through the two methods
`write_samples` (fill a buffer, return how many samples were written) and
`channel_count`.  A Source is embedded as a state type σ plus a model: the
step function receives the current buffer contents and returns the count,
the buffer after the call, and the next state; `none` models a panic inside
the child. -/

structure SourceM (σ : Type) where
  write : σ → List ℚ → Option (ℕ × List ℚ × σ)
  channel_count : σ → ℕ

/-- The Source contract relied upon by the callers: a write never claims
more samples than the buffer holds, never changes the buffer's length, and
the channel count of a Source never changes. -/
def SourceWF (S : SourceM σ) : Prop :=
  ∀ c buf k out c', S.write c buf = some (k, out, c') →
    k ≤ buf.length ∧ out.length = buf.length ∧
      S.channel_count c' = S.channel_count c

/-! ## WAV player (src/source/wav.rs) -/

inductive Format
  | U8
  | I16
  | I24
  | I32
  | F32
deriving DecidableEq

structure WavPlayer where
  file : List ℕ
  channels : ℕ
  sample_rate : ℕ
  sample_bytes : ℕ
  next_sample_offset : ℕ
  format : Format
  length : ℕ

/-- Bytes per sample of each format (the chunk size of the chunks_exact
iterators in WavPlayer::write_samples). -/
def Format.chunkBytes : Format → ℕ
  | .U8 => 1
  | .I16 => 2
  | .I24 => 3
  | .I32 => 4
  | .F32 => 4

/-- fn get_sample_u8: (i16::from(data) - 0x80) / i8::MAX. -/
def get_sample_u8 (b : ℕ) : ℚ := ((b : ℤ) - 128) / 127

/-- fn get_sample_i16: i16::from_le_bytes / i16::MAX. -/
def get_sample_i16 (b0 b1 : ℕ) : ℚ := (toSigned (b0 + 256 * b1) 16) / 32767

/-- fn get_sample_i24: i32::from_le_bytes([d0, d1, d2, 0]) / 8388608.
The high byte is the literal 0, exactly as in the source: the 24-bit value
is therefore read as an unsigned quantity inside a 32-bit integer. -/
def get_sample_i24 (b0 b1 b2 : ℕ) : ℚ :=
  (toSigned (b0 + 256 * b1 + 65536 * b2 + 16777216 * 0) 32) / 8388608

/-- fn get_sample_i32: i32::from_le_bytes / i32::MAX. -/
def get_sample_i32 (b0 b1 b2 b3 : ℕ) : ℚ :=
  (toSigned (b0 + 256 * b1 + 65536 * b2 + 16777216 * b3) 32) / 2147483647

/-- fn get_sample_f32: f32::from_le_bytes, decoded by the IEEE-754 single
format fields.  An infinity or NaN bit pattern (exponent 255) has no
rational value; it is mapped to 0 here (no claim depends on it). -/
def get_sample_f32 (b0 b1 b2 b3 : ℕ) : ℚ :=
  let bits : ℕ := b0 + 256 * b1 + 65536 * b2 + 16777216 * b3
  let sign : ℚ := if bits / 2 ^ 31 % 2 = 1 then -1 else 1
  let expo : ℕ := bits / 2 ^ 23 % 2 ^ 8
  let frac : ℕ := bits % 2 ^ 23
  if expo = 255 then 0
  else if expo = 0 then sign * (frac : ℚ) / 2 ^ 149
  else sign * ((2 ^ 23 + frac : ℕ) : ℚ) * 2 ^ expo / 2 ^ 150

/-- The j-th decoded sample of the remaining byte slice i (byte reads in
the iterators; indices are always in range at the call sites). -/
def decodeSample (f : Format) (i : List ℕ) (j : ℕ) : ℚ :=
  match f with
  | .U8 => get_sample_u8 (i.getD j 0)
  | .I16 => get_sample_i16 (i.getD (2 * j) 0) (i.getD (2 * j + 1) 0)
  | .I24 => get_sample_i24 (i.getD (3 * j) 0) (i.getD (3 * j + 1) 0) (i.getD (3 * j + 2) 0)
  | .I32 => get_sample_i32 (i.getD (4 * j) 0) (i.getD (4 * j + 1) 0)
      (i.getD (4 * j + 2) 0) (i.getD (4 * j + 3) 0)
  | .F32 => get_sample_f32 (i.getD (4 * j) 0) (i.getD (4 * j + 1) 0)
      (i.getD (4 * j + 2) 0) (i.getD (4 * j + 3) 0)

/-- WavPlayer::write_samples.  The buffer is represented by its requested
length n; the result is (samples_written, the written prefix, next state).
self.file.get(self.next_sample_offset..) is Some exactly when the offset is
at most the file length; the number of samples is the zip length
min(buffer length, remaining bytes / chunk size). -/
def WavPlayer.write_samples (w : WavPlayer) (n : ℕ) : ℕ × List ℚ × WavPlayer :=
  if w.next_sample_offset ≤ w.file.length then
    let i := w.file.drop w.next_sample_offset
    let samples_written := min n (i.length / w.format.chunkBytes)
    (samples_written,
      (List.range samples_written).map (fun j => decodeSample w.format i j),
      { w with next_sample_offset := w.next_sample_offset + samples_written * w.sample_bytes })
  else (0, [], w)

def WavPlayer.channel_count (w : WavPlayer) : ℕ := w.channels

/-! ## Mixer (src/mixer.rs) -/

structure MixerM (σ : Type) where
  channels : ℕ
  sources : List σ
  input_buffer : List ℚ

/-- Mixer::new(channels): no validation of the argument is performed. -/
def Mixer.new (σ : Type) (channels : ℕ) : MixerM σ :=
  { channels := channels, sources := [], input_buffer := [] }

/-- Mixer::add_source. -/
def Mixer.add_source (m : MixerM σ) (c : σ) : MixerM σ :=
  { m with sources := m.sources ++ [c] }

/-- The mono branch of the mixer: input_buffer[..count] zipped with
buffer.chunks_exact_mut(occ); each full chunk is OVERWRITTEN with the
corresponding mono sample (the source assigns with =, not +=).  A partial
trailing chunk is not visited by chunks_exact. -/
def monoChunks (buf : List ℚ) (samples : List ℚ) (occ : ℕ) : List ℚ :=
  match samples with
  | [] => buf
  | s :: ss =>
    if occ ≤ buf.length then List.replicate occ s ++ monoChunks (buf.drop occ) ss occ
    else buf

/-- The body of the retain_mut closure in Mixer::write_samples, for one
child.  The threaded accumulator is (output buffer, scratch input buffer).
Panics modelled by none: the scratch-size division by a zero output channel
count, a panic inside the child, the slice input_buffer[..count] in either
mixing branch when the child reported more samples than the scratch buffer
holds (the scratch Vec keeps its resized length across the child's write),
and the todo branch for other multi-channel layouts. -/
def mixStep (S : SourceM σ) (occ : ℕ) (c : σ) (acc : List ℚ × List ℚ) :
    Option (Bool × σ × (List ℚ × List ℚ)) :=
  let buf := acc.1
  let source_channel_count := S.channel_count c
  if occ = 0 then none
  else
    let ib := resizeZero acc.2 (buf.length * source_channel_count / occ)
    match S.write c ib with
    | none => none
    | some (count, ib2, c') =>
      if source_channel_count = occ then
        if count ≤ ib.length then
          some (count == ib.length, c', (addInto buf (ib2.take count), ib2))
        else none
      else if source_channel_count = 1 then
        if count ≤ ib.length then
          some (count == ib.length, c', (monoChunks buf (ib2.take count) occ, ib2))
        else none
      else none

/-- RetainMut::retain_mut's index loop: rem counts the remaining
iterations, i the current index, del the number of deleted elements so
far; kept elements are compacted by slice::swap, and at the end the vector
is truncated to the retained length.  The closure f threads an accumulator
and may panic (none). -/
def retainMutLoop (f : α → A → Option (Bool × α × A)) :
    ℕ → List α → ℕ → ℕ → A → Option (List α × A)
  | 0, v, i, del, acc => some (v.take (i - del), acc)
  | rem + 1, v, i, del, acc =>
    match v.get? i with
    | none => none
    | some t =>
      match f t acc with
      | none => none
      | some (keep, t2, acc2) =>
        let v2 := v.set i t2
        if keep then
          if 0 < del then retainMutLoop f rem (swapL v2 (i - del) i) (i + 1) del acc2
          else retainMutLoop f rem v2 (i + 1) del acc2
        else retainMutLoop f rem v2 (i + 1) (del + 1) acc2

/-- RetainMut::retain_mut on a vector, with a stateful closure. -/
def retain_mut (f : α → A → Option (Bool × α × A)) (v : List α) (acc : A) :
    Option (List α × A) :=
  retainMutLoop f v.length v 0 0 acc

/-- Mixer::write_samples: zero the output buffer, run every child through
the retain_mut closure, return the full buffer length. -/
def Mixer.write_samples (S : SourceM σ) (m : MixerM σ) (buffer : List ℚ) :
    Option (ℕ × List ℚ × MixerM σ) :=
  let buf0 : List ℚ := List.replicate buffer.length 0
  match retain_mut (mixStep S m.channels) m.sources (buf0, m.input_buffer) with
  | none => none
  | some (sources', (buf', ib')) =>
    some (buffer.length, buf', { m with sources := sources', input_buffer := ib' })

def Mixer.channel_count (m : MixerM σ) : ℕ := m.channels

/-! ## Polyphase resampler (src/resampler.rs) -/

/-- The recursive gcd helper inside Resampler::new:
gcd(a, b) = if b == 0 then a else gcd(b, a mod b).  Written with a fuel
argument (b + 1 always suffices, since the second argument strictly
decreases) so that the definition reduces by iota rules. -/
def rgcdFuel : ℕ → ℕ → ℕ → ℕ
  | 0, a, _ => a
  | fuel + 1, a, b => if b = 0 then a else rgcdFuel fuel b (a % b)

def rgcd (a b : ℕ) : ℕ := rgcdFuel (b + 1) a b

/-- struct Resampler<S>.  The f64 sinc/Kaiser table is carried as a list of
idealized rational coefficients (its real-valued construction is modelled
separately below); the two filter buffers hold idealized f32 samples. -/
structure Resampler (σ : Type) where
  source : σ
  from_ : ℕ
  to_ : ℕ
  left_offset : ℕ
  kaiser_values : List ℚ
  filter_1 : List ℚ
  filter_2 : List ℚ
  whole_filter_size : ℕ
  buffer_size : ℕ
  input_offset : ℕ
  output_count : ℕ
  last_sample : Option ℕ

/-- Resampler::new.  none models the assert! panics on a zero rate (and a
panic inside the child during the preload reads).  The kaiser_values
parameter stands for the f64 table computed by sinc_filter/kaiser_order;
only its length enters any control flow (kaiser_value_count, left_offset,
filter_samples).  The two filter buffers are created uninitialized with
set_len; the unwritten tail is modelled as zeros. -/
def Resampler.new (S : SourceM σ) (source : σ) (source_rate dest_rate : ℕ)
    (kaiser_values : List ℚ) : Option (Resampler σ) :=
  if source_rate = 0 ∨ dest_rate = 0 then none
  else
    let g := rgcd source_rate dest_rate
    let from_ := source_rate / g
    let to_ := dest_rate / g
    let kaiser_value_count := kaiser_values.length
    let left_offset := kaiser_value_count / 2
    let filter_samples := ((kaiser_value_count + to_) / to_) * S.channel_count source
    let init1 : List ℚ := List.replicate filter_samples 0
    let init2 : List ℚ := List.replicate filter_samples 0
    match S.write source init1 with
    | none => none
    | some (len1, f1, src1) =>
      if len1 = filter_samples then
        match S.write src1 init2 with
        | none => none
        | some (len2, f2, src2) =>
          some { source := src2, from_ := from_, to_ := to_, left_offset := left_offset,
                 kaiser_values := kaiser_values, filter_1 := f1, filter_2 := f2,
                 whole_filter_size := filter_samples * 2, buffer_size := filter_samples,
                 input_offset := 0, output_count := 0,
                 last_sample := if len2 = filter_samples then none else some len2 }
      else
        some { source := src1, from_ := from_, to_ := to_, left_offset := left_offset,
               kaiser_values := kaiser_values, filter_1 := f1, filter_2 := init2,
               whole_filter_size := filter_samples * 2, buffer_size := filter_samples,
               input_offset := 0, output_count := 0, last_sample := some len1 }

/-- The while loop of Resampler::write_samples that slides the window:
while sample_index ≥ whole_filter_size and last_sample is none, read new
samples into filter_1, record exhaustion as buffer_size + len, swap the two
filters, decrease sample_index by buffer_size and advance input_offset.
The u64 subtraction is checked (debug overflow semantics); fuel exhaustion
(none) models the infinite loop the code enters when buffer_size = 0. -/
def refillLoop (S : SourceM σ) : ℕ → Resampler σ → ℤ → Option (Resampler σ × ℤ)
  | 0, _, _ => none
  | fuel + 1, s, sample_index =>
    if (s.whole_filter_size : ℤ) ≤ sample_index ∧ s.last_sample = none then
      match S.write s.source s.filter_1 with
      | none => none
      | some (len, f1, src') =>
        let s1 : Resampler σ :=
          { s with source := src',
                   last_sample := if len = s.filter_1.length then s.last_sample
                                  else some (s.buffer_size + len),
                   filter_1 := s.filter_2, filter_2 := f1 }
        let si : ℤ := sample_index - (s.buffer_size : ℤ)
        if si < 0 then none
        else refillLoop S fuel { s1 with input_offset := s1.input_offset + s.buffer_size } si
    else some (s, sample_index)

/-- The convolution of one output sample: walk backwards from sample_index
through filter_1 (and possibly filter_2), stepping by the channel count,
against the Kaiser table stepped by to, starting at kaiser_index.
none models the usize underflow of `sample_index - buffer_size` and the
unreachable! branch. -/
def convolveAt (s : Resampler σ) (channels channel : ℕ) (kaiser_index : ℕ) (si : ℕ) :
    Option ℚ :=
  if si < s.filter_1.length then
    some (dotProd (stepBy channels ((s.filter_1.take (si + 1)).reverse))
      (stepBy s.to_ (s.kaiser_values.drop kaiser_index)))
  else if (si : ℤ) - (s.buffer_size : ℤ) < 0 then none
  else
    let offset := si - s.buffer_size
    if offset < s.filter_2.length then
      let iter := stepBy channels ((s.filter_2.take (offset + 1)).reverse)
      let skip := iter.length
      some (dotProd iter (stepBy s.to_ (s.kaiser_values.drop kaiser_index)) +
        dotProd (stepBy channels ((s.filter_1.reverse).drop (channels - channel - 1)))
          ((stepBy s.to_ (s.kaiser_values.drop kaiser_index)).drop skip))
    else none

/-- The per-output-sample for loop of Resampler::write_samples.  rem is the
number of buffer positions still to fill, out the samples written so far
(so the running index i equals out.length).  none models the panics: the
mod/div by a zero channel count or zero to, the u64 underflow when
computing sample_index, and the panics inside refillLoop/convolveAt. -/
def writeLoop (S : SourceM σ) (channels : ℕ) :
    ℕ → Resampler σ → List ℚ → Option (ℕ × List ℚ × Resampler σ)
  | 0, s, out => some (out.length, out, s)
  | rem + 1, s, out =>
    if channels = 0 then none
    else if s.to_ = 0 then none
    else
      let channel := s.output_count % channels
      let start := s.left_offset + s.from_ * (s.output_count / channels)
      let kaiser_index := start % s.to_
      let input_index := start / s.to_
      let raw : ℤ := ((input_index * channels + channel : ℕ) : ℤ) - (s.input_offset : ℤ)
      if raw < 0 then none
      else
        match refillLoop S (raw.toNat + 1) s raw with
        | none => none
        | some (s1, si) =>
          let exhausted : Bool := match s1.last_sample with
            | some e => decide (e ≤ si.toNat)
            | none => false
          if exhausted then some (out.length, out, s1)
          else
            match convolveAt s1 channels channel kaiser_index si.toNat with
            | none => none
            | some v =>
              writeLoop S channels rem { s1 with output_count := s1.output_count + 1 }
                (out ++ [v])

/-- Resampler::write_samples for a buffer of length n: the channel count is
read from the child once, before the loop. -/
def Resampler.write_samples (S : SourceM σ) (s : Resampler σ) (n : ℕ) :
    Option (ℕ × List ℚ × Resampler σ) :=
  writeLoop S (S.channel_count s.source) n s []

def Resampler.channel_count (S : SourceM σ) (s : Resampler σ) : ℕ :=
  S.channel_count s.source

/-- The sample_index the next pull will compute for its first output
sample, before any window slide, as a (possibly negative) integer. -/
def curIdx (S : SourceM σ) (s : Resampler σ) : ℤ :=
  let channels := S.channel_count s.source
  let start := s.left_offset + s.from_ * (s.output_count / channels)
  (((start / s.to_) * channels + s.output_count % channels : ℕ) : ℤ) - (s.input_offset : ℤ)

/-! ## Spec-level views of the mixer pass (for the pruning/totality claims) -/

/-- Straight-line (no index juggling) version of retain_mut with a stateful
closure: used as the reasoning target of the swap/truncate loop. -/
def retainPure (f : α → A → Option (Bool × α × A)) : List α → A → Option (List α × A)
  | [], acc => some ([], acc)
  | t :: ts, acc =>
    match f t acc with
    | none => none
    | some (keep, t2, acc2) =>
      match retainPure f ts acc2 with
      | none => none
      | some (kept, acc3) => some ((if keep then t2 :: kept else kept), acc3)

/-- One processed child of a mixer pull: its updated state, channel count,
returned sample count, requested scratch size, and the samples it wrote. -/
structure MixEntry (σ : Type) where
  child : σ
  scc : ℕ
  count : ℕ
  request : ℕ
  samples : List ℚ

/-- The sequence of per-child processing outcomes of one mixer pull on a
buffer of length n, threading only the scratch buffer (child counts cannot
depend on the output buffer).  A child that reports more samples than its
scratch request makes the pull panic (the input_buffer[..count] slice). -/
def mixTrace (S : SourceM σ) (occ n : ℕ) : List σ → List ℚ → Option (List (MixEntry σ) × List ℚ)
  | [], ib => some ([], ib)
  | c :: cs, ib =>
    if occ = 0 then none
    else
      let scc := S.channel_count c
      let ib1 := resizeZero ib (n * scc / occ)
      match S.write c ib1 with
      | none => none
      | some (count, ib2, c') =>
        if scc = occ ∨ scc = 1 then
          if count ≤ ib1.length then
            match mixTrace S occ n cs ib2 with
            | none => none
            | some (tr, ibf) =>
              some ({ child := c', scc := scc, count := count,
                      request := ib1.length, samples := ib2.take count } :: tr, ibf)
          else none
        else none

/-- The contribution of one processed child to the output buffer:
element-wise addition on the matching-channel path, chunk overwrite on the
mono-broadcast path. -/
def contribute (occ : ℕ) (buf : List ℚ) (e : MixEntry σ) : List ℚ :=
  if e.scc = occ then addInto buf e.samples else monoChunks buf e.samples occ

/-! ## Iterated pulls and the terminal state of the resampler -/

/-- Successive WavPlayer pulls with the given buffer lengths, collecting
the returned counts. -/
def wavRun (w : WavPlayer) : List ℕ → List ℕ
  | [] => []
  | n :: ns => (w.write_samples n).1 :: wavRun (w.write_samples n).2.2 ns

/-- Successive resampler pulls with the given buffer lengths, collecting
the returned counts (a panic ends the run). -/
def resRun (S : SourceM σ) : Resampler σ → List ℕ → List ℕ
  | _, [] => []
  | s, n :: ns =>
    match Resampler.write_samples S s n with
    | none => []
    | some (k, _, s') => k :: resRun S s' ns

/-- The terminal configuration of a resampler: the child has reported
exhaustion and the next sample to compute already lies at or past the
recorded end.  All guards of the pull loop pass and the first iteration
returns immediately. -/
def StuckR (S : SourceM σ) (s : Resampler σ) : Prop :=
  1 ≤ S.channel_count s.source ∧ 1 ≤ s.to_ ∧
    ∃ e, s.last_sample = some e ∧ (e : ℤ) ≤ curIdx S s

/-! ## Concrete sources used to instantiate the theorems -/

/-- A mono source that always fills the whole buffer with a constant. -/
def constSource : SourceM ℚ :=
  { write := fun v buf => some (buf.length, List.replicate buf.length v, v),
    channel_count := fun _ => 1 }

/-- A mono source holding a supply of c samples: it fills min(c, len)
positions (leaving the buffer contents as passed) and then runs dry. -/
def counterSource : SourceM ℕ :=
  { write := fun c buf => some (min c buf.length, buf, c - min c buf.length),
    channel_count := fun _ => 1 }

/-- A resampler state that is already exhausted at position 0: used to
instantiate the terminal-behaviour theorems. -/
def stuckRes : Resampler ℚ :=
  { source := 0, from_ := 1, to_ := 1, left_offset := 0, kaiser_values := [],
    filter_1 := [0], filter_2 := [0], whole_filter_size := 2, buffer_size := 1,
    input_offset := 0, output_count := 0, last_sample := some 0 }

/-! ## The Kaiser-windowed sinc mathematics (real-valued model)

The f64 functions inside Resampler::new are modelled over the reals;
decimal literals denote the corresponding rational constants. -/

/-- fn bessel_i0: the piecewise polynomial approximation of the modified
Bessel function of order zero used by the source. -/
noncomputable def bessel_i0 (x : ℝ) : ℝ :=
  let ax := |x|
  if ax < 3.75 then
    let y := (x / 3.75) ^ 2
    1 + y * (3.5156229 + y * (3.0899424 + y * (1.2067492 +
      y * (0.2659732 + y * (0.0360768 + y * 0.0045813)))))
  else
    let y := 3.75 / ax
    (Real.exp ax / Real.sqrt ax) *
      (0.39894228 + y * (0.01328592 + y * (0.00225319 + y * (-0.00157565 +
        y * (0.00916281 + y * (-0.02057706 + y * (0.02635537 +
          y * (-0.01647633 + y * 0.00392377))))))))

/-- fn kaiser: the window of the source, with the literal constants of the
code: beta = 6.20426 (65 dB rejection) and the precomputed normalizer
81.0332923199 (bessel_i0(6.20426)). -/
noncomputable def kaiser (k : ℝ) : ℝ :=
  if k < -1 ∨ 1 < k then 0
  else bessel_i0 (6.20426 * Real.sqrt (1 - k ^ 2)) / 81.0332923199

/-- fn sinc. -/
noncomputable def sinc (x : ℝ) : ℝ :=
  if x = 0 then 1 else Real.sin (x * Real.pi) / (x * Real.pi)

/-- fn sinc_filter: one entry of the filter table. -/
noncomputable def sinc_filter (left : ℕ) (gain cutoff : ℝ) (i : ℕ) : ℝ :=
  let l : ℝ := left
  let x : ℝ := (i : ℝ) - l
  kaiser (x / l) * 2 * gain * cutoff * sinc (2 * cutoff * x)

/-- fn kaiser_order: ceil((65 - 7.95) / (2.285 * 2 * pi * width)). -/
noncomputable def kaiser_order (transition_width : ℝ) : ℕ :=
  (⌈(65 - 7.95) / (2.285 * 2 * Real.pi * transition_width)⌉).toNat

/-- The window the claim describes (its words, not the code): the same
Bessel approximation evaluated at 18.87726 * sqrt(1 - k^2) and normalized
by bessel_i0(18.87726). -/
noncomputable def kaiserClaimWindow (k : ℝ) : ℝ :=
  if k < -1 ∨ 1 < k then 0
  else bessel_i0 (18.87726 * Real.sqrt (1 - k ^ 2)) / bessel_i0 18.87726

/-! ## C1: the mono-broadcast path of the mixer overwrites instead of adding -/

/-- C1.  The claim states that mixing is additive also on the mono-broadcast
path, so two non-exhausting mono children must produce the element-wise sum
of their individual contributions.  Evaluating the embedded code: a
2-channel mixer with constant mono children 1 and 2 produces [2, 2] — the
second child overwrote the first — while the two children alone produce
[1, 1] and [2, 2], whose element-wise sum is [3, 3] ≠ [2, 2].  The code
assigns (with =) in the mono branch where its own doc comment (a simple
additive mixer) and the spec require addition. -/
theorem mixer_mono_broadcast_overwrites :
    Mixer.write_samples constSource ⟨2, [1, 2], []⟩ [0, 0] =
        some (2, [2, 2], ⟨2, [1, 2], [2]⟩)
    ∧ Mixer.write_samples constSource ⟨2, [1], []⟩ [0, 0] =
        some (2, [1, 1], ⟨2, [1], [1]⟩)
    ∧ Mixer.write_samples constSource ⟨2, [2], []⟩ [0, 0] =
        some (2, [2, 2], ⟨2, [2], [2]⟩)
    ∧ List.zipWith (· + ·) [(1 : ℚ), 1] [2, 2] = [3, 3]
    ∧ ([(2 : ℚ), 2] : List ℚ) ≠ [3, 3] := by
  refine ⟨rfl, rfl, rfl, by norm_num, by simp⟩

/-! ## C4: the preload of Resampler::new on a second-read underfill -/

/-- C4.  The claim (and the spec, and the refill path of write_samples
itself) say a second-read underfill of k samples records
last_sample = buffer_size + k.  Evaluating Resampler::new with a child
holding exactly filter_samples = 1 sample (the first read fills, the second
returns k = 0): the constructed state carries last_sample = some 0, not
some (buffer_size + 0) = some 1.  The first-read clause of the claim is
honoured by the code (second conjunct: a dry child gives some 0 at
underfill position 0). -/
theorem resampler_preload_second_underfill_eval :
    Resampler.new counterSource 1 44100 44100 [] =
        some { source := 0, from_ := 1, to_ := 1, left_offset := 0, kaiser_values := [],
               filter_1 := [0], filter_2 := [0], whole_filter_size := 2, buffer_size := 1,
               input_offset := 0, output_count := 0, last_sample := some 0 }
    ∧ (some 0 : Option ℕ) ≠ some (1 + 0)
    ∧ Resampler.new counterSource 0 44100 44100 [] =
        some { source := 0, from_ := 1, to_ := 1, left_offset := 0, kaiser_values := [],
               filter_1 := [0], filter_2 := [0], whole_filter_size := 2, buffer_size := 1,
               input_offset := 0, output_count := 0, last_sample := some 0 } := by
  exact ⟨rfl, by decide, rfl⟩

/-! ## C6: i24 decoding does not sign-extend -/

/-- C6.  The claim says every signed 24-bit sample v, negatives included,
decodes to v / 2^23, so a negative sample decodes to a negative float.  The
bytes ff ff ff encode v = -1, but the code places a zero high byte in the
i32 and yields +16777215/8388608 (almost +2.0), a positive value, instead
of -1/8388608. -/
theorem i24_decode_unsigned_eval :
    get_sample_i24 255 255 255 = 16777215 / 8388608
    ∧ toSigned (255 + 256 * 255 + 65536 * 255) 24 = -1
    ∧ (0 : ℚ) < get_sample_i24 255 255 255
    ∧ ((toSigned (255 + 256 * 255 + 65536 * 255) 24 : ℤ) : ℚ) / 8388608 < 0
    ∧ get_sample_i24 255 255 255 ≠
        ((toSigned (255 + 256 * 255 + 65536 * 255) 24 : ℤ) : ℚ) / 8388608 := by
  refine ⟨?_, by decide, ?_, ?_, ?_⟩
  · norm_num [get_sample_i24, toSigned]
  · norm_num [get_sample_i24, toSigned]
  · norm_num [toSigned]
  · norm_num [get_sample_i24, toSigned]

/-! ## The swap/truncate loop of retain_mut equals the straight-line pass -/

theorem getq_append (xs ys : List α) (n : ℕ) :
    (xs ++ ys).get? (xs.length + n) = ys.get? n := by
  induction xs with
  | nil => simp
  | cons a as ih => simpa [Nat.succ_add] using ih

theorem setq_append (xs ys : List α) (n : ℕ) (v : α) :
    (xs ++ ys).set (xs.length + n) v = xs ++ ys.set n v := by
  induction xs with
  | nil => simp
  | cons a as ih => simpa [Nat.succ_add] using ih

theorem swap_mid (kept jrest rest : List α) (j0 t2 : α) :
    swapL (kept ++ (j0 :: jrest) ++ (t2 :: rest)) kept.length
        (kept.length + (jrest.length + 1)) =
      kept ++ (t2 :: jrest) ++ (j0 :: rest) := by
  have h1 : (kept ++ (j0 :: jrest) ++ (t2 :: rest)).get? kept.length = some j0 := by
    rw [List.append_assoc]
    simpa using getq_append kept ((j0 :: jrest) ++ t2 :: rest) 0
  have h2 : (kept ++ (j0 :: jrest) ++ (t2 :: rest)).get?
      (kept.length + (jrest.length + 1)) = some t2 := by
    have := getq_append (kept ++ (j0 :: jrest)) (t2 :: rest) 0
    simpa [List.length_append, Nat.add_assoc] using this
  have hstep : swapL (kept ++ (j0 :: jrest) ++ (t2 :: rest)) kept.length
      (kept.length + (jrest.length + 1)) =
      ((kept ++ (j0 :: jrest) ++ (t2 :: rest)).set kept.length t2).set
        (kept.length + (jrest.length + 1)) j0 := by
    unfold swapL
    rw [h1, h2]
  rw [hstep, List.append_assoc]
  have hs1 : (kept ++ (j0 :: (jrest ++ t2 :: rest))).set kept.length t2 =
      kept ++ (t2 :: (jrest ++ t2 :: rest)) := by
    simpa using setq_append kept (j0 :: (jrest ++ t2 :: rest)) 0 t2
  rw [show (j0 :: jrest) ++ (t2 :: rest) = j0 :: (jrest ++ t2 :: rest) by simp, hs1]
  have hs2 : (kept ++ (t2 :: (jrest ++ t2 :: rest))).set
      (kept.length + (jrest.length + 1)) j0 =
      kept ++ ((t2 :: (jrest ++ t2 :: rest)).set (jrest.length + 1) j0) :=
    setq_append kept (t2 :: (jrest ++ t2 :: rest)) (jrest.length + 1) j0
  rw [hs2]
  have hs3 : (t2 :: (jrest ++ t2 :: rest)).set (jrest.length + 1) j0 =
      t2 :: ((jrest ++ t2 :: rest).set jrest.length j0) := rfl
  have hs4 : (jrest ++ t2 :: rest).set jrest.length j0 = jrest ++ (j0 :: rest) := by
    simpa using setq_append jrest (t2 :: rest) 0 j0
  rw [hs3, hs4]
  simp

theorem getq_append2 (xs ys zs : List α) (a : α) :
    (xs ++ ys ++ a :: zs).get? (xs.length + ys.length) = some a := by
  have h := getq_append (xs ++ ys) (a :: zs) 0
  simpa [List.length_append] using h

theorem setq_append2 (xs ys zs : List α) (a v : α) :
    (xs ++ ys ++ a :: zs).set (xs.length + ys.length) v = xs ++ ys ++ v :: zs := by
  have h := setq_append (xs ++ ys) (a :: zs) 0 v
  simpa [List.length_append] using h

theorem retainMutLoop_eq (f : α → A → Option (Bool × α × A)) :
    ∀ (rest kept junk : List α) (acc : A),
      retainMutLoop f rest.length (kept ++ junk ++ rest)
          (kept.length + junk.length) junk.length acc
        = (retainPure f rest acc).map (fun p => (kept ++ p.1, p.2)) := by
  intro rest
  induction rest with
  | nil =>
    intro kept junk acc
    simp only [List.length_nil, List.append_nil, retainMutLoop, retainPure,
      Option.map_some', Nat.add_sub_cancel]
    rw [List.take_left]
  | cons t rest ih =>
    intro kept junk acc
    show retainMutLoop f (rest.length + 1) (kept ++ junk ++ t :: rest)
        (kept.length + junk.length) junk.length acc = _
    rw [retainMutLoop, getq_append2]
    cases hf : f t acc with
    | none => simp [retainPure, hf]
    | some r =>
      obtain ⟨keep, t2, acc2⟩ := r
      simp only [hf]
      rw [setq_append2]
      cases keep with
      | false =>
        simp only [Bool.false_eq_true, if_false]
        have harr : kept ++ junk ++ t2 :: rest = kept ++ (junk ++ [t2]) ++ rest := by simp
        have hidx : kept.length + junk.length + 1 = kept.length + (junk ++ [t2]).length := by
          simp [Nat.add_assoc]
        have hdel : junk.length + 1 = (junk ++ [t2]).length := by simp
        rw [harr, hidx, hdel, ih kept (junk ++ [t2]) acc2]
        simp only [retainPure, hf]
        cases hr : retainPure f rest acc2 with
        | none => rfl
        | some p => simp
      | true =>
        cases junk with
        | nil =>
          simp only [List.length_nil, Nat.lt_irrefl, if_false, Nat.add_zero, if_true,
            List.nil_append]
          have harr : kept ++ [] ++ t2 :: rest = (kept ++ [t2]) ++ ([] : List α) ++ rest := by
            simp
          have hidx : kept.length + 1 = (kept ++ [t2]).length + ([] : List α).length := by simp
          rw [harr, hidx, show (0 : ℕ) = ([] : List α).length from rfl,
            ih (kept ++ [t2]) [] acc2]
          simp only [retainPure, hf]
          cases hr : retainPure f rest acc2 with
          | none => rfl
          | some p => simp
        | cons j0 jrest =>
          have hpos : 0 < (j0 :: jrest).length := by simp
          simp only [hpos, if_true]
          have hsub : kept.length + (j0 :: jrest).length - (j0 :: jrest).length =
              kept.length := by omega
          rw [hsub, show (j0 :: jrest).length = jrest.length + 1 from rfl, swap_mid]
          have harr : kept ++ (t2 :: jrest) ++ j0 :: rest =
              (kept ++ [t2]) ++ (jrest ++ [j0]) ++ rest := by simp
          have hidx : kept.length + (jrest.length + 1) + 1 =
              (kept ++ [t2]).length + (jrest ++ [j0]).length := by
            simp [Nat.add_assoc, Nat.add_comm, Nat.add_left_comm]
          have hdel : jrest.length + 1 = (jrest ++ [j0]).length := by simp
          rw [harr, hidx, hdel, ih (kept ++ [t2]) (jrest ++ [j0]) acc2]
          simp only [retainPure, hf]
          cases hr : retainPure f rest acc2 with
          | none => rfl
          | some p => simp

/-- RetainMut::retain_mut with a stateful closure equals the straight-line
filtering pass: kept elements survive in order, with their updates, and the
closure's effects thread left to right over every element. -/
theorem retain_mut_eq_pure (f : α → A → Option (Bool × α × A)) (v : List α) (acc : A) :
    retain_mut f v acc = retainPure f v acc := by
  have h := retainMutLoop_eq f v [] [] acc
  simp only [List.nil_append, List.length_nil, Nat.add_zero] at h
  rw [retain_mut, h]
  cases hr : retainPure f v acc with
  | none => rfl
  | some p => simp

/-! ## Correspondence of the mixer pass with its per-child trace -/

theorem addInto_length (buf xs : List ℚ) : (addInto buf xs).length = buf.length := by
  induction buf generalizing xs with
  | nil => cases xs <;> rfl
  | cons b bs ih =>
    cases xs with
    | nil => rfl
    | cons x xs => simp [addInto, ih]

theorem monoChunks_length (ss : List ℚ) :
    ∀ (buf : List ℚ) (occ : ℕ), (monoChunks buf ss occ).length = buf.length := by
  induction ss with
  | nil => intro buf occ; rfl
  | cons s ss ih =>
    intro buf occ
    by_cases h : occ ≤ buf.length
    · simp only [monoChunks, h, if_true, List.length_append, List.length_replicate, ih,
        List.length_drop]
      omega
    · simp [monoChunks, h]

theorem contribute_length (occ : ℕ) (buf : List ℚ) (e : MixEntry σ) :
    (contribute occ buf e).length = buf.length := by
  unfold contribute
  by_cases h : e.scc = occ
  · simp [h, addInto_length]
  · simp [h, monoChunks_length]

theorem retainPure_mixStep_eq_trace (S : SourceM σ) (occ n : ℕ) :
    ∀ (cs : List σ) (buf ib : List ℚ), buf.length = n →
      retainPure (mixStep S occ) cs (buf, ib)
        = (mixTrace S occ n cs ib).map
            (fun p =>
              (p.1.filterMap (fun e => if e.count = e.request then some e.child else none),
               (p.1.foldl (contribute occ) buf, p.2))) := by
  intro cs
  induction cs with
  | nil => intro buf ib hlen; simp [retainPure, mixTrace]
  | cons c cs ih =>
    intro buf ib hlen
    subst hlen
    simp only [retainPure, mixTrace, mixStep]
    by_cases hocc : occ = 0
    · simp [hocc]
    · rw [if_neg hocc, if_neg hocc]
      cases hw : S.write c (resizeZero ib (buf.length * S.channel_count c / occ)) with
      | none => rfl
      | some r =>
        obtain ⟨count, ib2, c'⟩ := r
        simp only
        by_cases hso : S.channel_count c = occ
        · rw [if_pos hso, if_pos (Or.inl hso)]
          by_cases hcnt : count ≤ (resizeZero ib (buf.length * S.channel_count c / occ)).length
          · rw [if_pos hcnt, if_pos hcnt]
            have hih := ih (addInto buf (ib2.take count)) ib2 (addInto_length buf _)
            dsimp only
            rw [hih]
            cases ht : mixTrace S occ buf.length cs ib2 with
            | none => rfl
            | some p =>
              simp only [Option.map_some', List.filterMap_cons, List.foldl_cons]
              by_cases hk : count = (resizeZero ib (buf.length * occ / occ)).length
              · simp [hk, contribute, hso]
              · simp [hk, contribute, hso, beq_iff_eq]
          · rw [if_neg hcnt, if_neg hcnt]
            rfl
        · by_cases hs1 : S.channel_count c = 1
          · rw [if_neg hso, if_pos hs1, if_pos (Or.inr hs1)]
            by_cases hcnt : count ≤ (resizeZero ib (buf.length * S.channel_count c / occ)).length
            · rw [if_pos hcnt, if_pos hcnt]
              have hih := ih (monoChunks buf (ib2.take count) occ) ib2
                (monoChunks_length _ buf occ)
              dsimp only
              rw [hih]
              cases ht : mixTrace S occ buf.length cs ib2 with
              | none => rfl
              | some p =>
                simp only [Option.map_some', List.filterMap_cons, List.foldl_cons]
                by_cases hk : count = (resizeZero ib (buf.length * S.channel_count c / occ)).length
                · simp [hk, contribute, hso]
                · simp [hk, contribute, hso, beq_iff_eq]
            · rw [if_neg hcnt, if_neg hcnt]
              rfl
          · rw [if_neg hso, if_neg hs1, if_neg (by intro h; cases h <;> contradiction)]
            rfl

theorem constSource_wf : SourceWF constSource := by
  intro c buf k out c' h
  simp only [constSource, Option.some.injEq, Prod.mk.injEq] at h
  obtain ⟨h1, h2, h3⟩ := h
  refine ⟨by omega, by rw [← h2]; simp, rfl⟩

theorem counterSource_wf : SourceWF counterSource := by
  intro c buf k out c' h
  simp only [counterSource, Option.some.injEq, Prod.mk.injEq] at h
  obtain ⟨h1, h2, h3⟩ := h
  refine ⟨by omega, by rw [← h2], rfl⟩

theorem mixTrace_counts (S : SourceM σ) (hWF : SourceWF S) (occ n : ℕ) :
    ∀ (cs : List σ) (ib : List ℚ) (tr : List (MixEntry σ)) (ibf : List ℚ),
      mixTrace S occ n cs ib = some (tr, ibf) → ∀ e ∈ tr, e.count ≤ e.request := by
  intro cs
  induction cs with
  | nil =>
    intro ib tr ibf h e he
    simp only [mixTrace, Option.some.injEq, Prod.mk.injEq] at h
    rw [← h.1] at he
    simp at he
  | cons c cs ih =>
    intro ib tr ibf h e he
    simp only [mixTrace] at h
    by_cases hocc : occ = 0
    · simp [hocc] at h
    · rw [if_neg hocc] at h
      cases hw : S.write c (resizeZero ib (n * S.channel_count c / occ)) with
      | none => rw [hw] at h; exact absurd h (by simp)
      | some r =>
        obtain ⟨count, ib2, c'⟩ := r
        rw [hw] at h
        dsimp only at h
        by_cases hor : S.channel_count c = occ ∨ S.channel_count c = 1
        · rw [if_pos hor] at h
          by_cases hcnt : count ≤ (resizeZero ib (n * S.channel_count c / occ)).length
          · rw [if_pos hcnt] at h
            cases ht : mixTrace S occ n cs ib2 with
            | none => rw [ht] at h; exact absurd h (by simp)
            | some p =>
              rw [ht] at h
              simp only [Option.some.injEq, Prod.mk.injEq] at h
              obtain ⟨htr, hibf⟩ := h
              rw [← htr] at he
              cases he with
              | head => exact (hWF c _ _ _ _ hw).1
              | tail _ hmem => exact ih ib2 p.1 p.2 (by rw [ht]) e hmem
          · rw [if_neg hcnt] at h
            exact absurd h (by simp)
        · rw [if_neg hor] at h
          exact absurd h (by simp)

theorem mixTrace_total (S : SourceM σ) (occ n : ℕ) (hocc : occ ≠ 0)
    (hWF : SourceWF S)
    (hS : ∀ c buf, ∃ r, S.write c buf = some r)
    (hscc : ∀ c, S.channel_count c = occ ∨ S.channel_count c = 1) :
    ∀ (cs : List σ) (ib : List ℚ), ∃ tr ibf, mixTrace S occ n cs ib = some (tr, ibf) := by
  intro cs
  induction cs with
  | nil => intro ib; exact ⟨[], ib, rfl⟩
  | cons c cs ih =>
    intro ib
    obtain ⟨⟨count, ib2, c'⟩, hw⟩ := hS c (resizeZero ib (n * S.channel_count c / occ))
    obtain ⟨tr, ibf, ht⟩ := ih ib2
    refine ⟨{ child := c', scc := S.channel_count c, count := count,
              request := (resizeZero ib (n * S.channel_count c / occ)).length,
              samples := List.take count ib2 } :: tr, ibf, ?_⟩
    simp only [mixTrace]
    rw [if_neg hocc, hw]
    dsimp only
    rw [if_pos (hscc c), if_pos (hWF _ _ _ _ _ hw).1, ht]

/-! ## C7: the mixer always reports a full write; no children means silence -/

/-- C7.  For a buffer whose length is a multiple of the output channel
count (C_out ≥ 1 per the documented precondition), and children that obey
the Source contract of the spec — SourceWF, so in particular a child never
reports more samples than its scratch buffer holds, which would make the
input_buffer[..count] slice panic — where every pull returns and each child
is mono or matches the output layout (the only layouts the mixer accepts),
Mixer::write_samples returns exactly buffer.len(), however many children it
has and whether or not they are exhausted; with no children the output is
all zeros. -/
theorem mixer_full_write (S : SourceM σ) (m : MixerM σ) (buffer : List ℚ)
    (hch : 0 < m.channels) (hmul : buffer.length % m.channels = 0)
    (hWF : SourceWF S)
    (hS : ∀ c buf, ∃ r, S.write c buf = some r)
    (hscc : ∀ c : σ, S.channel_count c = m.channels ∨ S.channel_count c = 1) :
    (∃ out m', Mixer.write_samples S m buffer = some (buffer.length, out, m'))
    ∧ (m.sources = [] →
        Mixer.write_samples S m buffer =
          some (buffer.length, List.replicate buffer.length 0, m)) := by
  constructor
  · obtain ⟨tr, ibf, ht⟩ := mixTrace_total S m.channels buffer.length
      (Nat.pos_iff_ne_zero.mp hch) hWF hS hscc m.sources m.input_buffer
    unfold Mixer.write_samples
    dsimp only
    rw [retain_mut_eq_pure,
      retainPure_mixStep_eq_trace S m.channels buffer.length m.sources
        (List.replicate buffer.length 0) m.input_buffer (by simp), ht]
    exact ⟨_, _, rfl⟩
  · intro hsrc
    obtain ⟨mc, ms, mib⟩ := m
    simp only at hsrc
    subst hsrc
    simp [Mixer.write_samples, retain_mut, retainMutLoop]

/-- C7 witness: a 1-channel mixer with one constant child fills a length-2
buffer completely, and an empty mixer produces silence. -/
theorem mixer_full_write_witness :
    (∃ out m', Mixer.write_samples constSource ⟨1, [5], []⟩ [0, 0] = some (2, out, m'))
    ∧ Mixer.write_samples constSource ⟨1, [], []⟩ [0, 0] = some (2, [0, 0], ⟨1, [], []⟩) := by
  have h1 := mixer_full_write constSource ⟨1, [5], []⟩ [0, 0] (by decide) (by decide)
    constSource_wf (fun c buf => ⟨_, rfl⟩) (fun c => Or.inr rfl)
  have h2 := mixer_full_write constSource ⟨1, [], []⟩ [0, 0] (by decide) (by decide)
    constSource_wf (fun c buf => ⟨_, rfl⟩) (fun c => Or.inr rfl)
  exact ⟨h1.1, h2.2 rfl⟩

/-! ## C10: Mixer::new(0) is accepted and panics on the first non-empty pull -/

/-- C10.  Mixer::new performs no validation: new(0) succeeds and simply
stores the zero channel count.  Under the documented precondition
C_out ≥ 1 the scratch-size division is safe and a pull returns normally
(given children obeying the Source contract — SourceWF, so no child
reports more samples than its scratch buffer holds — that answer and have
an accepted layout), while a mixer with channels = 0 and at least one
child panics (division by zero while sizing the scratch buffer) on every
pull, modelled by none. -/
theorem mixer_zero_channels (σ : Type) (S : SourceM σ) :
    Mixer.new σ 0 = { channels := 0, sources := [], input_buffer := [] }
    ∧ (∀ (m : MixerM σ) (buffer : List ℚ), 0 < m.channels → SourceWF S →
        (∀ c buf, ∃ r, S.write c buf = some r) →
        (∀ c : σ, S.channel_count c = m.channels ∨ S.channel_count c = 1) →
        ∃ out m', Mixer.write_samples S m buffer = some (buffer.length, out, m'))
    ∧ (∀ (m : MixerM σ) (buffer : List ℚ), m.channels = 0 → m.sources ≠ [] →
        Mixer.write_samples S m buffer = none) := by
  refine ⟨rfl, ?_, ?_⟩
  · intro m buffer hch hWF hS hscc
    obtain ⟨tr, ibf, ht⟩ := mixTrace_total S m.channels buffer.length
      (Nat.pos_iff_ne_zero.mp hch) hWF hS hscc m.sources m.input_buffer
    unfold Mixer.write_samples
    dsimp only
    rw [retain_mut_eq_pure,
      retainPure_mixStep_eq_trace S m.channels buffer.length m.sources
        (List.replicate buffer.length 0) m.input_buffer (by simp), ht]
    exact ⟨_, _, rfl⟩
  · intro m buffer hzero hsrc
    unfold Mixer.write_samples
    dsimp only
    rw [retain_mut_eq_pure]
    cases hs : m.sources with
    | nil => exact absurd hs hsrc
    | cons c cs =>
      simp [retainPure, mixStep, hzero]

/-- C10 witness: new(0) over rational constant sources, a successful pull
of a 1-channel mixer, and the division-by-zero panic of a 0-channel mixer
with one child. -/
theorem mixer_zero_channels_witness :
    Mixer.new ℚ 0 = { channels := 0, sources := [], input_buffer := [] }
    ∧ (∃ out m', Mixer.write_samples constSource ⟨1, [3], []⟩ [0] = some (1, out, m'))
    ∧ Mixer.write_samples constSource ⟨0, [3], []⟩ [0] = none := by
  obtain ⟨h1, h2, h3⟩ := mixer_zero_channels ℚ constSource
  exact ⟨h1, h2 ⟨1, [3], []⟩ [0] (by decide) constSource_wf (fun c buf => ⟨_, rfl⟩)
    (fun c => Or.inr rfl), h3 ⟨0, [3], []⟩ [0] rfl (by simp)⟩

/-! ## C3: pruning happens exactly on an underfilled pull, after mixing -/

/-- C3.  One mixer pull corresponds to its per-child trace: the surviving
child list consists, in order, of exactly those children whose returned
count was not below the requested scratch size (every count is at most the
request under the Source contract, so these are exactly the non-underfilled
ones); the output buffer is the fold of ALL processed children's
contributions — a pruned child's final partial write is still mixed — and
pruned children are absent from the state used by every later pull. -/
theorem mixer_pruning (S : SourceM σ) (hWF : SourceWF S) (m : MixerM σ)
    (buffer : List ℚ) (k : ℕ) (out : List ℚ) (m' : MixerM σ)
    (hcall : Mixer.write_samples S m buffer = some (k, out, m')) :
    ∃ tr ibf,
      mixTrace S m.channels buffer.length m.sources m.input_buffer = some (tr, ibf)
      ∧ m'.sources = tr.filterMap
          (fun e => if e.count < e.request then none else some e.child)
      ∧ (∀ e ∈ tr, e.count ≤ e.request)
      ∧ out = tr.foldl (contribute m.channels) (List.replicate buffer.length 0)
      ∧ m'.input_buffer = ibf ∧ k = buffer.length ∧ m'.channels = m.channels := by
  unfold Mixer.write_samples at hcall
  dsimp only at hcall
  rw [retain_mut_eq_pure,
    retainPure_mixStep_eq_trace S m.channels buffer.length m.sources
      (List.replicate buffer.length 0) m.input_buffer (by simp)] at hcall
  cases ht : mixTrace S m.channels buffer.length m.sources m.input_buffer with
  | none => rw [ht] at hcall; exact absurd hcall (by simp)
  | some p =>
    obtain ⟨tr, ibf⟩ := p
    rw [ht] at hcall
    simp only [Option.map_some', Option.some.injEq, Prod.mk.injEq] at hcall
    obtain ⟨hk, hout, hm'⟩ := hcall
    have hcounts := mixTrace_counts S hWF m.channels buffer.length m.sources
      m.input_buffer tr ibf ht
    refine ⟨tr, ibf, rfl, ?_, hcounts, hout.symm, ?_, hk.symm, ?_⟩
    · rw [← hm']
      simp only
      apply List.filterMap_congr
      intro e he
      rcases Nat.lt_or_ge e.count e.request with hlt | hge
      · rw [if_pos hlt, if_neg (Nat.ne_of_lt hlt)]
      · have heq : e.count = e.request := Nat.le_antisymm (hcounts e he) hge
        rw [if_pos heq, if_neg (by omega)]
    · rw [← hm']
    · rw [← hm']

/-- C3 witness: a 1-channel mixer with one child that fills its (empty)
request completely, on an empty buffer. -/
theorem mixer_pruning_witness :
    ∃ tr ibf,
      mixTrace constSource 1 0 [(7 : ℚ)] [] = some (tr, ibf)
      ∧ ([(7 : ℚ)] : List ℚ) = tr.filterMap
          (fun e => if e.count < e.request then none else some e.child)
      ∧ (∀ e ∈ tr, e.count ≤ e.request)
      ∧ ([] : List ℚ) = tr.foldl (contribute 1) (List.replicate 0 0)
      ∧ ([] : List ℚ) = ibf ∧ 0 = 0 ∧ (1 : ℕ) = 1 := by
  have h := mixer_pruning constSource constSource_wf ⟨1, [7], []⟩ [] 0 []
    ⟨1, [7], []⟩ rfl
  obtain ⟨tr, ibf, h1, h2, h3, h4, h5, h6, h7⟩ := h
  exact ⟨tr, ibf, h1, h2, h3, h4, h5, rfl, rfl⟩

/-! ## WAV pull-length lemmas -/

theorem chunkBytes_pos (f : Format) : 1 ≤ f.chunkBytes := by cases f <;> decide

theorem wav_write_le (w : WavPlayer) (n : ℕ) : (w.write_samples n).1 ≤ n := by
  unfold WavPlayer.write_samples
  by_cases h : w.next_sample_offset ≤ w.file.length
  · simp [h]
  · simp [h]

theorem wav_stuck_write (w : WavPlayer)
    (hst : w.file.length - w.next_sample_offset < w.format.chunkBytes) (m : ℕ) :
    w.write_samples m = (0, [], w) := by
  unfold WavPlayer.write_samples
  by_cases h : w.next_sample_offset ≤ w.file.length
  · have hz : (w.file.length - w.next_sample_offset) / w.format.chunkBytes = 0 :=
      Nat.div_eq_of_lt hst
    rw [if_pos h]
    simp only [List.length_drop, hz, Nat.min_zero, List.range_zero, List.map_nil,
      Nat.zero_mul, Nat.add_zero]
  · rw [if_neg h]

theorem wav_short_stuck (w : WavPlayer) (n k : ℕ) (out : List ℚ) (w' : WavPlayer)
    (hsb : w.format.chunkBytes = w.sample_bytes)
    (hcall : w.write_samples n = (k, out, w')) (hshort : k < n) :
    w'.file.length - w'.next_sample_offset < w'.format.chunkBytes
    ∧ w'.format = w.format ∧ w'.sample_bytes = w.sample_bytes ∧ w'.file = w.file := by
  have hc : 1 ≤ w.format.chunkBytes := chunkBytes_pos _
  unfold WavPlayer.write_samples at hcall
  by_cases h : w.next_sample_offset ≤ w.file.length
  · rw [if_pos h] at hcall
    simp only [Prod.mk.injEq, List.length_drop] at hcall
    obtain ⟨hk, hout, hw'⟩ := hcall
    have hkd : k = (w.file.length - w.next_sample_offset) / w.format.chunkBytes := by
      by_cases hx : n ≤ (w.file.length - w.next_sample_offset) / w.format.chunkBytes
      · rw [min_eq_left hx] at hk; omega
      · have hxn : (w.file.length - w.next_sample_offset) / w.format.chunkBytes ≤ n :=
          le_of_lt (Nat.lt_of_not_le hx)
        rw [min_eq_right hxn] at hk; omega
    rw [← hw']
    refine ⟨?_, rfl, rfl, rfl⟩
    dsimp only
    rw [hk, hkd, ← hsb]
    have h1 := Nat.div_add_mod' (w.file.length - w.next_sample_offset) w.format.chunkBytes
    have hmlt : (w.file.length - w.next_sample_offset) % w.format.chunkBytes
        < w.format.chunkBytes := Nat.mod_lt _ (by omega)
    omega
  · rw [if_neg h] at hcall
    simp only [Prod.mk.injEq] at hcall
    obtain ⟨hk, hout, hw'⟩ := hcall
    rw [← hw']
    exact ⟨by omega, rfl, rfl, rfl⟩

theorem wav_stuck_run (w : WavPlayer)
    (hst : w.file.length - w.next_sample_offset < w.format.chunkBytes) :
    ∀ ns : List ℕ, wavRun w ns = ns.map (fun _ => 0) := by
  intro ns
  induction ns with
  | nil => rfl
  | cons n ns ih =>
    rw [wavRun, wav_stuck_write w hst n, List.map_cons]
    exact congrArg (List.cons 0) ih

/-! ## Resampler loop lemmas -/

theorem refill_channel (S : SourceM σ) (hWF : SourceWF S) :
    ∀ (fuel : ℕ) (s : Resampler σ) (si0 : ℤ) (s1 : Resampler σ) (si1 : ℤ),
      refillLoop S fuel s si0 = some (s1, si1) →
      S.channel_count s1.source = S.channel_count s.source := by
  intro fuel
  induction fuel with
  | zero =>
    intro s si0 s1 si1 h
    exact absurd h (by simp [refillLoop])
  | succ fuel ih =>
    intro s si0 s1 si1 h
    rw [refillLoop] at h
    by_cases hg : (s.whole_filter_size : ℤ) ≤ si0 ∧ s.last_sample = none
    · rw [if_pos hg] at h
      cases hw : S.write s.source s.filter_1 with
      | none => rw [hw] at h; exact absurd h (by simp)
      | some r =>
        obtain ⟨len, f1, src'⟩ := r
        rw [hw] at h
        dsimp only at h
        by_cases hneg : si0 - (s.buffer_size : ℤ) < 0
        · rw [if_pos hneg] at h; exact absurd h (by simp)
        · rw [if_neg hneg] at h
          exact (ih _ _ _ _ h).trans (hWF _ _ _ _ _ hw).2.2
    · rw [if_neg hg] at h
      simp only [Option.some.injEq, Prod.mk.injEq] at h
      rw [← h.1]

theorem refill_facts (S : SourceM σ) :
    ∀ (fuel : ℕ) (s : Resampler σ) (si0 : ℤ) (s1 : Resampler σ) (si1 : ℤ),
      refillLoop S fuel s si0 = some (s1, si1) →
      s1.to_ = s.to_ ∧ s1.from_ = s.from_ ∧ s1.left_offset = s.left_offset
      ∧ s1.output_count = s.output_count
      ∧ si1 + (s1.input_offset : ℤ) = si0 + (s.input_offset : ℤ)
      ∧ (0 ≤ si0 → 0 ≤ si1)
      ∧ (∀ e, s.last_sample = some e → s1.last_sample = some e) := by
  intro fuel
  induction fuel with
  | zero =>
    intro s si0 s1 si1 h
    exact absurd h (by simp [refillLoop])
  | succ fuel ih =>
    intro s si0 s1 si1 h
    rw [refillLoop] at h
    by_cases hg : (s.whole_filter_size : ℤ) ≤ si0 ∧ s.last_sample = none
    · rw [if_pos hg] at h
      cases hw : S.write s.source s.filter_1 with
      | none => rw [hw] at h; exact absurd h (by simp)
      | some r =>
        obtain ⟨len, f1, src'⟩ := r
        rw [hw] at h
        dsimp only at h
        by_cases hneg : si0 - (s.buffer_size : ℤ) < 0
        · rw [if_pos hneg] at h; exact absurd h (by simp)
        · rw [if_neg hneg] at h
          obtain ⟨hto, hfr, hlo, hoc, hoff, hpos, hlast⟩ := ih _ _ _ _ h
          refine ⟨hto, hfr, hlo, hoc, ?_, fun _ => hpos (by omega), ?_⟩
          · simp only at hoff
            push_cast at hoff ⊢
            omega
          · intro e he
            rw [hg.2] at he
            cases he
    · rw [if_neg hg] at h
      simp only [Option.some.injEq, Prod.mk.injEq] at h
      obtain ⟨h1, h2⟩ := h
      subst h1
      subst h2
      exact ⟨rfl, rfl, rfl, rfl, rfl, fun hp => hp, fun e he => he⟩

theorem writeLoop_le (S : SourceM σ) (ch : ℕ) :
    ∀ (rem : ℕ) (s : Resampler σ) (out : List ℚ) (k : ℕ) (o : List ℚ) (s' : Resampler σ),
      writeLoop S ch rem s out = some (k, o, s') → k ≤ out.length + rem := by
  intro rem
  induction rem with
  | zero =>
    intro s out k o s' h
    simp only [writeLoop, Option.some.injEq, Prod.mk.injEq] at h
    omega
  | succ rem ih =>
    intro s out k o s' h
    rw [writeLoop] at h
    by_cases hch : ch = 0
    · rw [if_pos hch] at h; exact absurd h (by simp)
    · rw [if_neg hch] at h
      by_cases hto : s.to_ = 0
      · rw [if_pos hto] at h; exact absurd h (by simp)
      · rw [if_neg hto] at h
        dsimp only at h
        by_cases hneg : ((s.left_offset + s.from_ * (s.output_count / ch)) / s.to_ * ch +
            s.output_count % ch : ℕ) - (s.input_offset : ℤ) < 0
        · rw [if_pos hneg] at h; exact absurd h (by simp)
        · rw [if_neg hneg] at h
          cases hr : refillLoop S _ s _ with
          | none => rw [hr] at h; exact absurd h (by simp)
          | some p =>
            obtain ⟨s1, si⟩ := p
            rw [hr] at h
            dsimp only at h
            cases hl : s1.last_sample with
            | some e =>
              rw [hl] at h
              by_cases hex : e ≤ si.toNat
              · rw [if_pos (by simp [hex])] at h
                simp only [Option.some.injEq, Prod.mk.injEq] at h
                omega
              · rw [if_neg (by simp [hex])] at h
                cases hcv : convolveAt s1 ch (s.output_count % ch)
                    ((s.left_offset + s.from_ * (s.output_count / ch)) % s.to_) si.toNat with
                | none => rw [hcv] at h; exact absurd h (by simp)
                | some v =>
                  rw [hcv] at h
                  have := ih _ _ _ _ _ h
                  simp only [List.length_append, List.length_cons, List.length_nil] at this
                  omega
            | none =>
              rw [hl] at h
              simp only [Bool.false_eq_true, if_false] at h
              cases hcv : convolveAt s1 ch (s.output_count % ch)
                  ((s.left_offset + s.from_ * (s.output_count / ch)) % s.to_) si.toNat with
              | none => rw [hcv] at h; exact absurd h (by simp)
              | some v =>
                rw [hcv] at h
                have := ih _ _ _ _ _ h
                simp only [List.length_append, List.length_cons, List.length_nil] at this
                omega

theorem writeLoop_fields (S : SourceM σ) (ch : ℕ) :
    ∀ (rem : ℕ) (s : Resampler σ) (out : List ℚ) (k : ℕ) (o : List ℚ) (s' : Resampler σ),
      writeLoop S ch rem s out = some (k, o, s') →
      s'.to_ = s.to_ ∧ s'.from_ = s.from_
      ∧ (∀ e, s.last_sample = some e → s'.last_sample = some e) := by
  intro rem
  induction rem with
  | zero =>
    intro s out k o s' h
    simp only [writeLoop, Option.some.injEq, Prod.mk.injEq] at h
    rw [← h.2.2]
    exact ⟨rfl, rfl, fun e he => he⟩
  | succ rem ih =>
    intro s out k o s' h
    rw [writeLoop] at h
    by_cases hch : ch = 0
    · rw [if_pos hch] at h; exact absurd h (by simp)
    · rw [if_neg hch] at h
      by_cases hto : s.to_ = 0
      · rw [if_pos hto] at h; exact absurd h (by simp)
      · rw [if_neg hto] at h
        dsimp only at h
        by_cases hneg : ((s.left_offset + s.from_ * (s.output_count / ch)) / s.to_ * ch +
            s.output_count % ch : ℕ) - (s.input_offset : ℤ) < 0
        · rw [if_pos hneg] at h; exact absurd h (by simp)
        · rw [if_neg hneg] at h
          cases hr : refillLoop S _ s _ with
          | none => rw [hr] at h; exact absurd h (by simp)
          | some p =>
            obtain ⟨s1, si⟩ := p
            rw [hr] at h
            dsimp only at h
            obtain ⟨hto1, hfr1, hlo1, hoc1, hoff1, hpos1, hlast1⟩ := refill_facts S _ _ _ _ _ hr
            cases hl : s1.last_sample with
            | some e =>
              rw [hl] at h
              by_cases hex : e ≤ si.toNat
              · rw [if_pos (by simp [hex])] at h
                simp only [Option.some.injEq, Prod.mk.injEq] at h
                rw [← h.2.2]
                exact ⟨hto1, hfr1, fun e' he' => hlast1 e' he'⟩
              · rw [if_neg (by simp [hex])] at h
                cases hcv : convolveAt s1 ch (s.output_count % ch)
                    ((s.left_offset + s.from_ * (s.output_count / ch)) % s.to_) si.toNat with
                | none => rw [hcv] at h; exact absurd h (by simp)
                | some v =>
                  rw [hcv] at h
                  obtain ⟨ht2, hf2, hl2⟩ := ih _ _ _ _ _ h
                  exact ⟨ht2.trans hto1, hf2.trans hfr1,
                    fun e' he' => hl2 e' (hl.symm.trans (hlast1 e' he'))⟩
            | none =>
              rw [hl] at h
              simp only [Bool.false_eq_true, if_false] at h
              cases hcv : convolveAt s1 ch (s.output_count % ch)
                  ((s.left_offset + s.from_ * (s.output_count / ch)) % s.to_) si.toNat with
              | none => rw [hcv] at h; exact absurd h (by simp)
              | some v =>
                rw [hcv] at h
                obtain ⟨ht2, hf2, hl2⟩ := ih _ _ _ _ _ h
                exact ⟨ht2.trans hto1, hf2.trans hfr1,
                  fun e' he' => (Option.some_ne_none e' ((hlast1 e' he').symm.trans hl)).elim⟩

theorem stuck_write (S : SourceM σ) (s : Resampler σ) (hs : StuckR S s) (n : ℕ) :
    Resampler.write_samples S s n = some (0, [], s) := by
  obtain ⟨hch, hto, e, hlast, hle⟩ := hs
  unfold curIdx at hle
  dsimp only at hle
  unfold Resampler.write_samples
  cases n with
  | zero => rfl
  | succ n =>
    rw [writeLoop]
    rw [if_neg (by omega), if_neg (by omega)]
    dsimp only
    rw [if_neg (by omega)]
    rw [refillLoop]
    rw [if_neg (by simp [hlast])]
    dsimp only
    rw [hlast]
    rw [if_pos (by rw [decide_eq_true_eq]; omega)]
    rfl

theorem short_to_stuck (S : SourceM σ) (hWF : SourceWF S) (ch : ℕ) :
    ∀ (rem : ℕ) (s : Resampler σ) (out : List ℚ) (k : ℕ) (o : List ℚ) (s' : Resampler σ),
      ch = S.channel_count s.source →
      writeLoop S ch rem s out = some (k, o, s') → k < out.length + rem →
      StuckR S s' := by
  intro rem
  induction rem with
  | zero =>
    intro s out k o s' hcheq h hk
    simp only [writeLoop, Option.some.injEq, Prod.mk.injEq] at h
    omega
  | succ rem ih =>
    intro s out k o s' hcheq h hk
    rw [writeLoop] at h
    by_cases hch : ch = 0
    · rw [if_pos hch] at h; exact absurd h (by simp)
    · rw [if_neg hch] at h
      by_cases hto : s.to_ = 0
      · rw [if_pos hto] at h; exact absurd h (by simp)
      · rw [if_neg hto] at h
        dsimp only at h
        by_cases hneg : ((s.left_offset + s.from_ * (s.output_count / ch)) / s.to_ * ch +
            s.output_count % ch : ℕ) - (s.input_offset : ℤ) < 0
        · rw [if_pos hneg] at h; exact absurd h (by simp)
        · rw [if_neg hneg] at h
          cases hr : refillLoop S _ s _ with
          | none => rw [hr] at h; exact absurd h (by simp)
          | some p =>
            obtain ⟨s1, si⟩ := p
            rw [hr] at h
            dsimp only at h
            have hchan := refill_channel S hWF _ _ _ _ _ hr
            obtain ⟨hto1, hfr1, hlo1, hoc1, hoff1, hpos1, hlast1⟩ := refill_facts S _ _ _ _ _ hr
            cases hl : s1.last_sample with
            | some e =>
              rw [hl] at h
              by_cases hex : e ≤ si.toNat
              · rw [if_pos (by simp [hex])] at h
                simp only [Option.some.injEq, Prod.mk.injEq] at h
                obtain ⟨hk1, ho1, hs1⟩ := h
                rw [← hs1]
                refine ⟨by rw [hchan, ← hcheq]; omega, by rw [hto1]; omega, e, hl, ?_⟩
                have hcur : curIdx S s1 = si := by
                  unfold curIdx
                  dsimp only
                  rw [hchan, ← hcheq, hto1, hfr1, hlo1, hoc1]
                  have hpos0 : (0 : ℤ) ≤
                      ((s.left_offset + s.from_ * (s.output_count / ch)) / s.to_ * ch +
                        s.output_count % ch : ℕ) - (s.input_offset : ℤ) := by omega
                  omega
                rw [hcur]
                have := hpos1 (by omega)
                omega
              · rw [if_neg (by simp [hex])] at h
                cases hcv : convolveAt s1 ch (s.output_count % ch)
                    ((s.left_offset + s.from_ * (s.output_count / ch)) % s.to_) si.toNat with
                | none => rw [hcv] at h; exact absurd h (by simp)
                | some v =>
                  rw [hcv] at h
                  refine ih _ _ _ _ _ (by rw [hcheq, hchan]) h ?_
                  simp only [List.length_append, List.length_cons, List.length_nil]
                  omega
            | none =>
              rw [hl] at h
              simp only [Bool.false_eq_true, if_false] at h
              cases hcv : convolveAt s1 ch (s.output_count % ch)
                  ((s.left_offset + s.from_ * (s.output_count / ch)) % s.to_) si.toNat with
              | none => rw [hcv] at h; exact absurd h (by simp)
              | some v =>
                rw [hcv] at h
                refine ih _ _ _ _ _ (by rw [hcheq, hchan]) h ?_
                simp only [List.length_append, List.length_cons, List.length_nil]
                omega

theorem stuck_run (S : SourceM σ) (s : Resampler σ) (hs : StuckR S s) :
    ∀ ns : List ℕ, resRun S s ns = ns.map (fun _ => 0) := by
  intro ns
  induction ns with
  | nil => rfl
  | cons n ns ih =>
    rw [resRun, stuck_write S s hs n]
    exact congrArg (List.cons 0) ih

/-! ## C2: the pull length contract of WavPlayer and Resampler -/

/-- C2.  For a buffer whose length is a multiple of the source's channel
count: a WavPlayer pull returns at most the buffer length, and after a pull
that returned less than the (non-zero) buffer length every later pull
returns 0; a Resampler pull (with a child obeying the Source contract)
returns at most the buffer length, and after a short pull every later pull
returns 0.  The WavPlayer hypothesis that the stored sample_bytes matches
the format's chunk size is established by WavPlayer::new (sample_bits/8 of
the matched format). -/
theorem pull_length_contract :
    (∀ (w : WavPlayer) (n : ℕ), n % w.channels = 0 →
      (w.write_samples n).1 ≤ n
      ∧ (w.format.chunkBytes = w.sample_bytes →
          ∀ k out w', w.write_samples n = (k, out, w') → k < n →
          ∀ ns : List ℕ, wavRun w' ns = ns.map (fun _ => 0)))
    ∧ (∀ (σ : Type) (S : SourceM σ) (s : Resampler σ) (n : ℕ), SourceWF S →
        n % S.channel_count s.source = 0 →
        ∀ k out s', Resampler.write_samples S s n = some (k, out, s') →
        k ≤ n ∧ (k < n → ∀ ns : List ℕ, resRun S s' ns = ns.map (fun _ => 0))) := by
  constructor
  · intro w n _
    refine ⟨wav_write_le w n, ?_⟩
    intro hsb k out w' hcall hshort ns
    obtain ⟨hst, _, _, _⟩ := wav_short_stuck w n k out w' hsb hcall hshort
    exact wav_stuck_run w' hst ns
  · intro σ S s n hWF _ k out s' hcall
    constructor
    · have := writeLoop_le S (S.channel_count s.source) n s [] k out s' hcall
      simpa using this
    · intro hshort ns
      have hstuck : StuckR S s' := by
        refine short_to_stuck S hWF (S.channel_count s.source) n s [] k out s' rfl hcall ?_
        simpa using hshort
      exact stuck_run S s' hstuck ns

/-- C2 witness: an exhausted WavPlayer (empty file body) underfills a
2-sample request and then yields only zeros; an exhausted resampler state
underfills a 1-sample request and then yields only zeros. -/
theorem pull_length_contract_witness :
    (WavPlayer.write_samples ⟨[], 1, 44100, 1, 0, Format.U8, 0⟩ 2).1 ≤ 2
    ∧ wavRun ⟨[], 1, 44100, 1, 0, Format.U8, 0⟩ [3, 5] = [0, 0]
    ∧ (0 : ℕ) ≤ 1
    ∧ resRun constSource stuckRes [4, 7] = [0, 0] := by
  obtain ⟨hwav, hres⟩ := pull_length_contract
  have h1 := hwav ⟨[], 1, 44100, 1, 0, Format.U8, 0⟩ 2 (by decide)
  have h2 := h1.2 rfl 0 [] ⟨[], 1, 44100, 1, 0, Format.U8, 0⟩ rfl (by decide) [3, 5]
  have h3 := hres ℚ constSource stuckRes 1 constSource_wf (by decide) 0 [] stuckRes rfl
  exact ⟨h1.1, h2, h3.1, h3.2 (by decide) [4, 7]⟩

/-! ## C9: last_sample is sticky and ends every pull that reaches it -/

/-- C9.  Once last_sample is Some e it is never unset or changed by any
write_samples call, and a pull whose first computed sample_index already
reaches or passes e (with the guards of a constructed state: channel count
and the reduced `to` are positive) returns 0 samples — short for every
non-empty buffer — leaving the state untouched. -/
theorem resampler_last_sample_monotone (σ : Type) (S : SourceM σ) (s : Resampler σ) (e : ℕ)
    (hlast : s.last_sample = some e) :
    (∀ n k out s', Resampler.write_samples S s n = some (k, out, s') →
        s'.last_sample = some e)
    ∧ (1 ≤ S.channel_count s.source → 1 ≤ s.to_ → (e : ℤ) ≤ curIdx S s →
        ∀ n, 0 < n → Resampler.write_samples S s n = some (0, [], s) ∧ (0 : ℕ) < n) := by
  constructor
  · intro n k out s' hcall
    exact (writeLoop_fields S (S.channel_count s.source) n s [] k out s' hcall).2.2 e hlast
  · intro hch hto hle n hn
    exact ⟨stuck_write S s ⟨hch, hto, e, hlast, hle⟩ n, hn⟩

/-- C9 witness: the exhausted state with last_sample = some 0 keeps its
marker across a pull and returns 0 of 1 requested samples. -/
theorem resampler_last_sample_monotone_witness :
    stuckRes.last_sample = some 0
    ∧ Resampler.write_samples constSource stuckRes 1 = some (0, [], stuckRes)
    ∧ (0 : ℕ) < 1 := by
  obtain ⟨hpres, hstuck⟩ :=
    resampler_last_sample_monotone ℚ constSource stuckRes 0 rfl
  have h2 := hstuck (by decide) (by decide) (by decide) 1 (by decide)
  exact ⟨hpres 1 0 [] stuckRes rfl, h2.1, h2.2⟩

/-! ## C8: the rate ratio is reduced at construction and never changes -/

theorem rgcdFuel_eq : ∀ (fuel a b : ℕ), b < fuel → rgcdFuel fuel a b = Nat.gcd a b := by
  intro fuel
  induction fuel with
  | zero => intro a b h; omega
  | succ fuel ih =>
    intro a b h
    rw [rgcdFuel]
    by_cases hb : b = 0
    · rw [if_pos hb, hb, Nat.gcd_zero_right]
    · rw [if_neg hb,
        ih b (a % b) (lt_of_lt_of_le (Nat.mod_lt a (Nat.pos_of_ne_zero hb)) (by omega))]
      calc Nat.gcd b (a % b) = Nat.gcd (a % b) b := Nat.gcd_comm _ _
        _ = Nat.gcd b a := (Nat.gcd_rec b a).symm
        _ = Nat.gcd a b := Nat.gcd_comm _ _

theorem rgcd_eq (a b : ℕ) : rgcd a b = Nat.gcd a b :=
  rgcdFuel_eq (b + 1) a b (by omega)

/-- C8.  Resampler::new panics (none) when either rate is 0; any
successfully constructed state has from = source_rate/g and
to = dest_rate/g with g their gcd, both positive and coprime, and no
write_samples call ever changes these two fields. -/
theorem resampler_ratio_reduction (σ : Type) (S : SourceM σ) (src : σ) (sr dr : ℕ)
    (kv : List ℚ) :
    ((sr = 0 ∨ dr = 0) → Resampler.new S src sr dr kv = none)
    ∧ (∀ s, Resampler.new S src sr dr kv = some s →
        s.from_ = sr / Nat.gcd sr dr ∧ s.to_ = dr / Nat.gcd sr dr
        ∧ 0 < s.from_ ∧ 0 < s.to_ ∧ Nat.gcd s.from_ s.to_ = 1
        ∧ ∀ n k out s', Resampler.write_samples S s n = some (k, out, s') →
            s'.from_ = s.from_ ∧ s'.to_ = s.to_) := by
  constructor
  · intro hz
    unfold Resampler.new
    rw [if_pos hz]
  · intro s hnew
    by_cases hz : sr = 0 ∨ dr = 0
    · unfold Resampler.new at hnew
      rw [if_pos hz] at hnew
      exact absurd hnew (by simp)
    · have hsr : sr ≠ 0 := fun h => hz (Or.inl h)
      have hdr : dr ≠ 0 := fun h => hz (Or.inr h)
      have hg : 0 < Nat.gcd sr dr :=
        Nat.pos_of_ne_zero (fun h => hsr (Nat.gcd_eq_zero_iff.mp h).1)
      have hfrom_pos : 0 < sr / Nat.gcd sr dr :=
        Nat.div_pos (Nat.le_of_dvd (Nat.pos_of_ne_zero hsr) (Nat.gcd_dvd_left sr dr)) hg
      have hto_pos : 0 < dr / Nat.gcd sr dr :=
        Nat.div_pos (Nat.le_of_dvd (Nat.pos_of_ne_zero hdr) (Nat.gcd_dvd_right sr dr)) hg
      have hcop : Nat.gcd (sr / Nat.gcd sr dr) (dr / Nat.gcd sr dr) = 1 :=
        Nat.coprime_div_gcd_div_gcd hg
      unfold Resampler.new at hnew
      rw [if_neg hz] at hnew
      dsimp only at hnew
      split at hnew
      · exact absurd hnew (by simp)
      · split at hnew
        · split at hnew
          · exact absurd hnew (by simp)
          · have hs := Option.some.inj hnew
            subst hs
            refine ⟨?_, ?_, ?_, ?_, ?_, ?_⟩
            · show sr / rgcd sr dr = sr / Nat.gcd sr dr
              rw [rgcd_eq]
            · show dr / rgcd sr dr = dr / Nat.gcd sr dr
              rw [rgcd_eq]
            · show 0 < sr / rgcd sr dr
              rw [rgcd_eq]
              exact hfrom_pos
            · show 0 < dr / rgcd sr dr
              rw [rgcd_eq]
              exact hto_pos
            · show Nat.gcd (sr / rgcd sr dr) (dr / rgcd sr dr) = 1
              simp only [rgcd_eq]
              exact hcop
            · intro n k out s' hcall
              have hfields := writeLoop_fields S _ n _ [] k out s' hcall
              exact ⟨hfields.2.1, hfields.1⟩
        · have hs := Option.some.inj hnew
          subst hs
          refine ⟨?_, ?_, ?_, ?_, ?_, ?_⟩
          · show sr / rgcd sr dr = sr / Nat.gcd sr dr
            rw [rgcd_eq]
          · show dr / rgcd sr dr = dr / Nat.gcd sr dr
            rw [rgcd_eq]
          · show 0 < sr / rgcd sr dr
            rw [rgcd_eq]
            exact hfrom_pos
          · show 0 < dr / rgcd sr dr
            rw [rgcd_eq]
            exact hto_pos
          · show Nat.gcd (sr / rgcd sr dr) (dr / rgcd sr dr) = 1
            simp only [rgcd_eq]
            exact hcop
          · intro n k out s' hcall
            have hfields := writeLoop_fields S _ n _ [] k out s' hcall
            exact ⟨hfields.2.1, hfields.1⟩

/-- C8 witness: rates 44100 and 48000 reduce to 147/160, positive and
coprime, and a (trivial, empty) pull keeps them. -/
theorem resampler_ratio_reduction_witness :
    (147 : ℕ) = 44100 / Nat.gcd 44100 48000
    ∧ (160 : ℕ) = 48000 / Nat.gcd 44100 48000
    ∧ Nat.gcd 147 160 = 1
    ∧ Resampler.new counterSource 5 0 48000 [] = none := by
  obtain ⟨hzero, hsome⟩ :=
    resampler_ratio_reduction ℕ counterSource 5 44100 48000 ([] : List ℚ)
  have h := hsome
    { source := 3, from_ := 147, to_ := 160, left_offset := 0, kaiser_values := [],
      filter_1 := [0], filter_2 := [0], whole_filter_size := 2, buffer_size := 1,
      input_offset := 0, output_count := 0, last_sample := none } rfl
  obtain ⟨hzero2, _⟩ :=
    resampler_ratio_reduction ℕ counterSource 5 0 48000 ([] : List ℚ)
  exact ⟨h.1, h.2.1, h.2.2.2.2.1, hzero2 (Or.inl rfl)⟩

/-! ## C5: the Kaiser window parameter of the source is 6.20426, not 18.87726 -/

theorem bessel_upper_branch (x : ℝ) (hx : 3.75 ≤ x) :
    bessel_i0 x = (Real.exp x / Real.sqrt x) *
      (0.39894228 + 3.75 / x * (0.01328592 + 3.75 / x * (0.00225319 + 3.75 / x * (-0.00157565 +
        3.75 / x * (0.00916281 + 3.75 / x * (-0.02057706 + 3.75 / x * (0.02635537 +
          3.75 / x * (-0.01647633 + 3.75 / x * 0.00392377)))))))) := by
  have h0 : (0:ℝ) ≤ x := by linarith
  unfold bessel_i0
  dsimp only
  rw [abs_of_nonneg h0, if_neg (not_lt.mpr hx)]

theorem sqrt_one_sub_sq_four_fifths : Real.sqrt (1 - (4/5 : ℝ)^2) = 3/5 := by
  rw [show (1 - (4/5 : ℝ)^2) = (3/5)^2 by norm_num,
    Real.sqrt_sq (by norm_num : (0:ℝ) ≤ 3/5)]

theorem kaiser_code_value_gt : (1/20 : ℝ) < kaiser (4/5) := by
  unfold kaiser
  rw [if_neg (by norm_num), sqrt_one_sub_sq_four_fifths,
    show (6.20426 : ℝ) * (3/5) = 3.722556 by norm_num]
  unfold bessel_i0
  dsimp only
  rw [abs_of_nonneg (by norm_num : (0:ℝ) ≤ 3.722556),
    if_pos (by norm_num : (3.722556:ℝ) < 3.75)]
  norm_num

theorem exp_gap_gt_thousand : (1000 : ℝ) < Real.exp 7.550904 := by
  have h1 : Real.exp (7:ℝ) = Real.exp 1 ^ (7:ℕ) := by
    rw [← Real.exp_nat_mul]
    norm_num
  have h2 : (1000:ℝ) < Real.exp 7 := by
    rw [h1]
    have h3 : (2.7182818283 : ℝ) ^ (7:ℕ) < Real.exp 1 ^ (7:ℕ) :=
      pow_lt_pow_left₀ Real.exp_one_gt_d9 (by norm_num) (by norm_num)
    nlinarith [h3]
  exact lt_trans h2 (Real.exp_lt_exp.mpr (by norm_num))

theorem kaiser_claim_value_lt : kaiserClaimWindow (4/5) < 1/20 := by
  unfold kaiserClaimWindow
  rw [if_neg (by norm_num), sqrt_one_sub_sq_four_fifths,
    show (18.87726 : ℝ) * (3/5) = 11.326356 by norm_num]
  rw [bessel_upper_branch 11.326356 (by norm_num), bessel_upper_branch 18.87726 (by norm_num)]
  set P1 : ℝ := 0.39894228 + 3.75 / 11.326356 * (0.01328592 + 3.75 / 11.326356 *
    (0.00225319 + 3.75 / 11.326356 * (-0.00157565 + 3.75 / 11.326356 *
    (0.00916281 + 3.75 / 11.326356 * (-0.02057706 + 3.75 / 11.326356 *
    (0.02635537 + 3.75 / 11.326356 * (-0.01647633 + 3.75 / 11.326356 * 0.00392377)))))))
    with hP1def
  set P2 : ℝ := 0.39894228 + 3.75 / 18.87726 * (0.01328592 + 3.75 / 18.87726 *
    (0.00225319 + 3.75 / 18.87726 * (-0.00157565 + 3.75 / 18.87726 *
    (0.00916281 + 3.75 / 18.87726 * (-0.02057706 + 3.75 / 18.87726 *
    (0.02635537 + 3.75 / 18.87726 * (-0.01647633 + 3.75 / 18.87726 * 0.00392377)))))))
    with hP2def
  set E1 : ℝ := Real.exp 11.326356 with hE1def
  set E2 : ℝ := Real.exp 18.87726 with hE2def
  set S1 : ℝ := Real.sqrt 11.326356 with hS1def
  set S2 : ℝ := Real.sqrt 18.87726 with hS2def
  have hP1b : P1 < 0.41 := by rw [hP1def]; norm_num
  have hP1p : (0:ℝ) < P1 := by rw [hP1def]; norm_num
  have hP2b : (0.39:ℝ) < P2 := by rw [hP2def]; norm_num
  have hE1p : (0:ℝ) < E1 := Real.exp_pos _
  have hE2p : (0:ℝ) < E2 := Real.exp_pos _
  have hS1p : (0:ℝ) < S1 := Real.sqrt_pos.mpr (by norm_num)
  have hS2p : (0:ℝ) < S2 := Real.sqrt_pos.mpr (by norm_num)
  have hS : S2 < 1.3 * S1 := by
    rw [hS1def, hS2def]
    have h2 : Real.sqrt (18.87726 : ℝ) < Real.sqrt (1.69 * 11.326356) :=
      Real.sqrt_lt_sqrt (by norm_num) (by norm_num)
    rw [Real.sqrt_mul (by norm_num : (0:ℝ) ≤ 1.69),
      show Real.sqrt (1.69:ℝ) = 1.3 by
        rw [show (1.69:ℝ) = 1.3^2 by norm_num,
          Real.sqrt_sq (by norm_num : (0:ℝ) ≤ 1.3)]] at h2
    exact h2
  have hE : 1000 * E1 < E2 := by
    have hsplit : E2 = E1 * Real.exp 7.550904 := by
      rw [hE1def, hE2def, show (18.87726:ℝ) = 11.326356 + 7.550904 by norm_num, Real.exp_add]
    rw [hsplit]
    nlinarith [exp_gap_gt_thousand, hE1p]
  have hV2 : (0:ℝ) < E2 / S2 * P2 := by positivity
  rw [div_lt_iff hV2]
  have hL : E1 / S1 * P1 = E1 * P1 / S1 := by ring
  have hR : (1/20 : ℝ) * (E2 / S2 * P2) = E2 * P2 / (20 * S2) := by ring
  rw [hL, hR, div_lt_div_iff hS1p (by positivity : (0:ℝ) < 20 * S2)]
  calc E1 * P1 * (20 * S2) < E1 * P1 * (20 * (1.3 * S1)) := by gcongr
    _ < E1 * 0.41 * (20 * (1.3 * S1)) := by gcongr
    _ = (1000 * E1) * (0.01066 * S1) := by ring
    _ < E2 * (0.01066 * S1) := by gcongr
    _ < E2 * (0.39 * S1) := by
      gcongr
      norm_num
    _ < E2 * (P2 * S1) := by gcongr
    _ = E2 * P2 * S1 := by ring

/-- C5 counterexample.  The claim's window function (the same Bessel
approximation evaluated at 18.87726 * sqrt(1 - k^2), normalized by
bessel_i0(18.87726)) disagrees with the code's kaiser at the table argument
k = 4/5 (reached by the 1:1 table at index 72, where left_offset = 40): the
code's value exceeds 1/20 (it is about 0.110) while the claim's window is
below 1/20 (about 0.0014). -/
theorem kaiser_beta_counterexample : kaiser (4/5) ≠ kaiserClaimWindow (4/5) := by
  intro h
  have h1 := kaiser_code_value_gt
  rw [h] at h1
  have h2 := kaiser_claim_value_lt
  linarith

/-- C5 amended.  The source's Kaiser window is parameterized by
beta = 6.20426 (a 65 dB stopband, per the code comments), and it is
normalized by the precomputed constant 81.0332923199 (the code's inlined
value of bessel_i0(6.20426)): on every argument in [-1, 1] — all table
arguments x/L lie there — kaiser(k) equals the Bessel approximation at
6.20426 * sqrt(1 - k^2) divided by 81.0332923199. -/
theorem kaiser_beta_amended (q : ℚ) (h1 : -1 ≤ q) (h2 : q ≤ 1) :
    kaiser (q : ℝ) =
      bessel_i0 (6.20426 * Real.sqrt (1 - (q : ℝ) ^ 2)) / 81.0332923199 := by
  unfold kaiser
  rw [if_neg]
  rintro (h | h)
  · have : ((-1 : ℚ) : ℝ) ≤ (q : ℝ) := by exact_mod_cast h1
    have hlt : (q : ℝ) < ((-1 : ℚ) : ℝ) := by push_cast; exact h
    linarith
  · have : (q : ℝ) ≤ ((1 : ℚ) : ℝ) := by exact_mod_cast h2
    have hlt : ((1 : ℚ) : ℝ) < (q : ℝ) := by push_cast; exact h
    linarith

/-- C5 amended witness at the table midpoint argument k = 0. -/
theorem kaiser_beta_amended_witness :
    kaiser ((0 : ℚ) : ℝ) =
      bessel_i0 (6.20426 * Real.sqrt (1 - ((0 : ℚ) : ℝ) ^ 2)) / 81.0332923199 :=
  kaiser_beta_amended 0 (by decide) (by decide)
